import Mathlib

/-!
Verification of the GGPK archive toolkit (PyPoE/poe/file/ggpk.py) against its
natural-language specification.

The development shallowly embeds the record decoder, the offset-table scan
(`GGPKFile._read` / `GGPKFile._read_record`), the tree builder
(`GGPKFile.directory_build`) and the `DirectoryNode` navigation API.

Conventions of the embedding:
* a byte stream is a `List Nat` of byte values; the seekable cursor of the
  source is passed explicitly as a `Nat` position;
* machine integers are decoded to `Nat`/`Int` (`struct.unpack` little-endian,
  `int.from_bytes(..., 'big')` big-endian); signed widths use an explicit
  wrap at `2^31` / `2^63`;
* fallible reads return `Except ReadErr` / `Option`; each Python exception
  that the claims mention is a distinct `ReadErr` / `BuildError` constructor,
  documented at its declaration;
* decoded UTF-16 name payloads are kept as their raw bytes in the byte-level
  records; the navigation layer (which only ever compares already-decoded
  names) models names as `List Char`.
-/

namespace GGPK

/-- Little-endian interpretation of a byte list (first byte least
significant), as produced by `struct.unpack('<i' / '<I' / '<q', ...)` before
sign handling. -/
def leNat : List Nat → Nat
  | [] => 0
  | b :: bs => b + 256 * leNat bs

/-- Big-endian interpretation of a byte list, as produced by
`int.from_bytes(bytes, 'big')` for the 32-byte hashes. -/
def beNat (bs : List Nat) : Nat :=
  bs.foldl (fun acc b => acc * 256 + b) 0

/-- Signed 32-bit little-endian decode (`struct.unpack('<i', ...)`). -/
def i32De (bs : List Nat) : Int :=
  let u := leNat bs
  if u < 2 ^ 31 then (u : Int) else (u : Int) - 2 ^ 32

/-- Signed 64-bit little-endian decode (`struct.unpack('<q', ...)`). -/
def i64De (bs : List Nat) : Int :=
  let u := leNat bs
  if u < 2 ^ 63 then (u : Int) else (u : Int) - 2 ^ 64

/-- Unsigned 32-bit little-endian decode (`struct.unpack('<I', ...)`). -/
def u32De (bs : List Nat) : Nat := leNat bs

/-- Models `ggpkfile.read(n)` at position `pos`, demanding that all `n` bytes exist
(a short read makes the subsequent `struct.unpack` raise in the source, so a
short read is a failure here). -/
def readBytes (data : List Nat) (pos n : Nat) : Option (List Nat) :=
  if pos + n ≤ data.length then some ((data.drop pos).take n) else none

/-- Failures of the byte-level decoder.  `unknownRecordKind` is the
`raise ValueError()` on an unrecognized tag in `GGPKFile._read_record`
(the spec's `UnknownRecordKind`); `truncatedRecord` is a `struct.error` /
short read past end-of-stream (the spec's `TruncatedRecord`);
`seekNegative` is the `ValueError` a `seek` to a negative position raises;
`badNameLength` marks a declared `name_length < 1`, for which the source
would pass a negative byte count to `read` (reading to end-of-stream) --
such malformed records are modelled as a decode failure; `scanStuck` marks
exhaustion of the scan loop's fuel (the source would still be looping). -/
inductive ReadErr where
  | unknownRecordKind
  | truncatedRecord
  | seekNegative
  | badNameLength
  | scanStuck
  deriving DecidableEq, Repr

/-- Models `DirectoryRecordEntry`: murmur2 32-bit hash of the child's name plus the
child record's absolute offset. -/
structure DirectoryRecordEntry where
  hash : Nat
  offset : Int
  deriving DecidableEq, Repr

/-- Models `GGPKRecord` (tag `'GGPK'`): the master record listing child offsets. -/
structure GGPKRecord where
  length : Int
  offset : Int
  offsets : List Int
  deriving DecidableEq, Repr

/-- Models `DirectoryRecord` (tag `'PDIR'`).  `name` keeps the raw UTF-16LE payload
bytes read for the name. -/
structure DirectoryRecord where
  length : Int
  offset : Int
  name_length : Int
  entries_length : Int
  hash : Nat
  name : List Nat
  entries : List DirectoryRecordEntry
  deriving DecidableEq, Repr

/-- Models `FileRecord` (tag `'FILE'`).  `data_start`/`data_length` describe the
lazily-read payload; `name` keeps the raw UTF-16 payload bytes. -/
structure FileRecord where
  length : Int
  offset : Int
  name_length : Int
  hash : Nat
  name : List Nat
  data_start : Int
  data_length : Int
  deriving DecidableEq, Repr

/-- Models `FreeRecord` (tag `'FREE'`): head pointer of the free-extent list. -/
structure FreeRecord where
  length : Int
  offset : Int
  next_free : Int
  deriving DecidableEq, Repr

/-- The closed union of the four record kinds stored in `GGPKFile.records`. -/
inductive Record where
  | file (r : FileRecord)
  | free (r : FreeRecord)
  | pdir (r : DirectoryRecord)
  | ggpk (r : GGPKRecord)
  deriving DecidableEq, Repr

/-- Total declared byte size of a record (`self.length`, header included). -/
def recordLength : Record → Int
  | .file r => r.length
  | .free r => r.length
  | .pdir r => r.length
  | .ggpk r => r.length

/-- Models `GGPKRecord.read`: the loop `for i in range(0, records): ...` reading
`records` 8-byte offsets.  A negative decoded count iterates zero times,
matching `range`. -/
def readOffsets (data : List Nat) : Nat → Nat → Except ReadErr (List Int × Nat)
  | pos, 0 => .ok ([], pos)
  | pos, k + 1 =>
    match readBytes data pos 8 with
    | none => .error .truncatedRecord
    | some ob =>
      match readOffsets data (pos + 8) k with
      | .error e => .error e
      | .ok (rest, fin) => .ok (i64De ob :: rest, fin)

/-- Body of `GGPKRecord.read` (cursor starts just past the 8-byte header). -/
def GGPKRecord.read (len off : Int) (data : List Nat) (pos : Nat) :
    Except ReadErr (GGPKRecord × Nat) :=
  match readBytes data pos 4 with
  | none => .error .truncatedRecord
  | some cb =>
    match readOffsets data (pos + 4) (i32De cb).toNat with
    | .error e => .error e
    | .ok (offs, fin) => .ok (⟨len, off, offs⟩, fin)

/-- The entry loop of `DirectoryRecord.read`: `entries_length` times an
unsigned 32-bit hash followed by a signed 64-bit offset. -/
def readEntries (data : List Nat) : Nat → Nat →
    Except ReadErr (List DirectoryRecordEntry × Nat)
  | pos, 0 => .ok ([], pos)
  | pos, k + 1 =>
    match readBytes data pos 4 with
    | none => .error .truncatedRecord
    | some hb =>
      match readBytes data (pos + 4) 8 with
      | none => .error .truncatedRecord
      | some ob =>
        match readEntries data (pos + 12) k with
        | .error e => .error e
        | .ok (rest, fin) => .ok (⟨u32De hb, i64De ob⟩ :: rest, fin)

/-- Body of `DirectoryRecord.read`: name length, entry count, 32-byte hash,
`2*(name_length-1)` name bytes, a 2-byte null terminator skipped with
`seek(2, SEEK_CUR)`, then the entries. -/
def DirectoryRecord.read (len off : Int) (data : List Nat) (pos : Nat) :
    Except ReadErr (DirectoryRecord × Nat) :=
  match readBytes data pos 4 with
  | none => .error .truncatedRecord
  | some nlb =>
    match readBytes data (pos + 4) 4 with
    | none => .error .truncatedRecord
    | some elb =>
      match readBytes data (pos + 8) 32 with
      | none => .error .truncatedRecord
      | some hb =>
        let nl := i32De nlb
        if nl < 1 then .error .badNameLength
        else
          let nameLen := (2 * (nl - 1)).toNat
          match readBytes data (pos + 40) nameLen with
          | none => .error .truncatedRecord
          | some nb =>
            match readEntries data (pos + 40 + nameLen + 2) (i32De elb).toNat with
            | .error e => .error e
            | .ok (es, fin) =>
              .ok (⟨len, off, nl, i32De elb, beNat hb, nb, es⟩, fin)

/-- Body of `FileRecord.read`: name length, 32-byte hash,
`2*(name_length-1)` name bytes, 2-byte terminator skip; then `data_start`
is `tell()`, `data_length = length - 44 - name_length * 2`, and the cursor
is moved past the unread payload with `seek(data_length, SEEK_CUR)`. -/
def FileRecord.read (len off : Int) (data : List Nat) (pos : Nat) :
    Except ReadErr (FileRecord × Nat) :=
  match readBytes data pos 4 with
  | none => .error .truncatedRecord
  | some nlb =>
    match readBytes data (pos + 4) 32 with
    | none => .error .truncatedRecord
    | some hb =>
      let nl := i32De nlb
      if nl < 1 then .error .badNameLength
      else
        let nameLen := (2 * (nl - 1)).toNat
        match readBytes data (pos + 36) nameLen with
        | none => .error .truncatedRecord
        | some nb =>
          let dataStart : Int := (pos : Int) + 36 + nameLen + 2
          let dataLength : Int := len - 44 - nl * 2
          let target : Int := dataStart + dataLength
          if target < 0 then .error .seekNegative
          else .ok (⟨len, off, nl, beNat hb, nb, dataStart, dataLength⟩, target.toNat)

/-- Body of `FreeRecord.read`: the 8-byte `next_free` pointer, then
`seek(length - 16, SEEK_CUR)` over the unread filler. -/
def FreeRecord.read (len off : Int) (data : List Nat) (pos : Nat) :
    Except ReadErr (FreeRecord × Nat) :=
  match readBytes data pos 8 with
  | none => .error .truncatedRecord
  | some nfb =>
    let target : Int := (pos : Int) + 8 + (len - 16)
    if target < 0 then .error .seekNegative
    else .ok (⟨len, off, i64De nfb⟩, target.toNat)

/-- ASCII bytes of the `'FILE'` tag. -/
def fileTag : List Nat := [70, 73, 76, 69]

/-- ASCII bytes of the `'FREE'` tag. -/
def freeTag : List Nat := [70, 82, 69, 69]

/-- ASCII bytes of the `'PDIR'` tag. -/
def pdirTag : List Nat := [80, 68, 73, 82]

/-- ASCII bytes of the `'GGPK'` tag. -/
def ggpkTag : List Nat := [71, 71, 80, 75]

/-- Models `GGPKFile._read_record`: reads the 4-byte length and the 4-byte tag,
dispatches on the tag in the source's order (FILE / FREE / PDIR / GGPK) and
otherwise raises `ValueError()` -- the spec's `UnknownRecordKind`.  (A tag
whose bytes are not ASCII makes the source's `.decode('ascii')` raise
`UnicodeDecodeError`, a subclass of the very same `ValueError`; both paths
are the `unknownRecordKind` failure here.)  Returns the decoded record and
the cursor position after it. -/
def readRecord (data : List Nat) (pos : Nat) : Except ReadErr (Record × Nat) :=
  match readBytes data pos 4 with
  | none => .error .truncatedRecord
  | some lb =>
    match readBytes data (pos + 4) 4 with
    | none => .error .truncatedRecord
    | some tb =>
      let len := i32De lb
      if tb = fileTag then
        match FileRecord.read len pos data (pos + 8) with
        | .error e => .error e
        | .ok (r, fin) => .ok (.file r, fin)
      else if tb = freeTag then
        match FreeRecord.read len pos data (pos + 8) with
        | .error e => .error e
        | .ok (r, fin) => .ok (.free r, fin)
      else if tb = pdirTag then
        match DirectoryRecord.read len pos data (pos + 8) with
        | .error e => .error e
        | .ok (r, fin) => .ok (.pdir r, fin)
      else if tb = ggpkTag then
        match GGPKRecord.read len pos data (pos + 8) with
        | .error e => .error e
        | .ok (r, fin) => .ok (.ggpk r, fin)
      else .error .unknownRecordKind

/-- The offset-keyed record table (`GGPKFile.records`), in insertion order.
Keys are the absolute offsets the scan loop passed to `_read_record`. -/
abbrev Table := List (Int × Record)

/-- The scan loop of `GGPKFile._read`: `while offset < size: _read_record;
offset = buffer.tell()`.  The loop is driven by fuel; exhausted fuel models
the source looping without reaching `size` (possible only for malformed
records that fail to advance the cursor). -/
def readLoop (data : List Nat) : Nat → Nat → Except ReadErr Table
  | 0, _ => .error .scanStuck
  | fuel + 1, pos =>
    if pos < data.length then
      match readRecord data pos with
      | .error e => .error e
      | .ok (r, pos') =>
        match readLoop data fuel pos' with
        | .error e => .error e
        | .ok tbl => .ok (((pos : Int), r) :: tbl)
    else .ok []

/-- Models `GGPKFile._read`: scan the whole byte source from offset 0.  A stream of
well-formed records advances by at least one byte per record, so
`data.length + 1` fuel never runs out on the inputs the claims quantify
over. -/
def GGPKFile.read (data : List Nat) : Except ReadErr Table :=
  readLoop data (data.length + 1) 0

/-!
Well-formed record chunks.  A chunk is the byte span of one record; it is
well formed when its declared length equals its actual size and its
per-kind size arithmetic is consistent, which is exactly the condition
under which decoding walks the chunk completely and stops at its end.
-/

/-- A byte chunk is a well-formed record encoding: at least the 8-byte
header, declared length equal to the chunk size, a known tag, and per-kind
consistent size arithmetic (name lengths at least 1 -- the terminator --
and payload fitting the declared length exactly). -/
def wfChunk (c : List Nat) : Bool :=
  decide (8 ≤ c.length) && (i32De (c.take 4) == (c.length : Int)) &&
    (let t := (c.drop 4).take 4
     if t = fileTag then
       let nl := i32De ((c.drop 8).take 4)
       decide (1 ≤ nl) && decide (44 + 2 * nl ≤ (c.length : Int))
     else if t = freeTag then decide (16 ≤ c.length)
     else if t = pdirTag then
       let nl := i32De ((c.drop 8).take 4)
       let ec := i32De ((c.drop 12).take 4)
       decide (1 ≤ nl) && decide (0 ≤ ec) &&
         ((c.length : Int) == 48 + 2 * nl + 12 * ec)
     else if t = ggpkTag then
       let cnt := i32De ((c.drop 8).take 4)
       decide (0 ≤ cnt) && ((c.length : Int) == 12 + 8 * cnt)
     else false)

/-- Reading `n` bytes at offset `k` inside a chunk that sits at `pos`
returns the corresponding slice of the chunk. -/
theorem readBytes_chunk (data c : List Nat) (pos k n : Nat)
    (hc : (data.drop pos).take c.length = c) (hb : pos + c.length ≤ data.length)
    (hkn : k + n ≤ c.length) :
    readBytes data (pos + k) n = some ((c.drop k).take n) := by
  have hlen : pos + k + n ≤ data.length := by omega
  have hX : ((data.drop pos).drop k).take n = (c.drop k).take n := by
    conv_rhs => rw [← hc]
    rw [List.drop_take]
    rw [List.take_take]
    congr 1
    omega
  unfold readBytes
  rw [if_pos hlen]
  rw [← hX, List.drop_drop]

/-- The entry loop succeeds and consumes exactly 12 bytes per entry when
the bytes are available. -/
theorem readEntries_ok (data : List Nat) :
    ∀ (k pos : Nat), pos + 12 * k ≤ data.length →
      ∃ es, readEntries data pos k = .ok (es, pos + 12 * k) := by
  intro k
  induction k with
  | zero => intro pos _; exact ⟨[], by simp [readEntries]⟩
  | succ m ih =>
    intro pos hb
    have h4 : readBytes data pos 4 =
        some ((data.drop pos).take 4) := by
      unfold readBytes; rw [if_pos (by omega)]
    have h8 : readBytes data (pos + 4) 8 =
        some ((data.drop (pos + 4)).take 8) := by
      unfold readBytes; rw [if_pos (by omega)]
    obtain ⟨es, hes⟩ := ih (pos + 12) (by omega)
    refine ⟨⟨u32De ((data.drop pos).take 4),
      i64De ((data.drop (pos + 4)).take 8)⟩ :: es, ?_⟩
    unfold readEntries
    rw [h4, h8, hes]
    have : pos + 12 + 12 * m = pos + 12 * (m + 1) := by ring
    rw [this]

/-- The offset loop succeeds and consumes exactly 8 bytes per offset when
the bytes are available. -/
theorem readOffsets_ok (data : List Nat) :
    ∀ (k pos : Nat), pos + 8 * k ≤ data.length →
      ∃ os, readOffsets data pos k = .ok (os, pos + 8 * k) := by
  intro k
  induction k with
  | zero => intro pos _; exact ⟨[], by simp [readOffsets]⟩
  | succ m ih =>
    intro pos hb
    have h8 : readBytes data pos 8 =
        some ((data.drop pos).take 8) := by
      unfold readBytes; rw [if_pos (by omega)]
    obtain ⟨os, hos⟩ := ih (pos + 8) (by omega)
    refine ⟨i64De ((data.drop pos).take 8) :: os, ?_⟩
    unfold readOffsets
    rw [h8, hos]
    have : pos + 8 + 8 * m = pos + 8 * (m + 1) := by ring
    rw [this]

/-- Decoding a well-formed FILE chunk consumes exactly the chunk. -/
theorem fileRead_chunk (data c : List Nat) (pos : Nat)
    (hc : (data.drop pos).take c.length = c) (hb : pos + c.length ≤ data.length)
    (hnl : 1 ≤ i32De ((c.drop 8).take 4))
    (hsz : 44 + 2 * i32De ((c.drop 8).take 4) ≤ (c.length : Int)) :
    ∃ r : FileRecord,
      FileRecord.read (c.length : Int) (pos : Int) data (pos + 8) =
        .ok (r, pos + c.length) ∧ r.length = (c.length : Int) := by
  have h1 : readBytes data (pos + 8) 4 = some ((c.drop 8).take 4) :=
    readBytes_chunk data c pos 8 4 hc hb (by omega)
  have h2 : readBytes data (pos + 12) 32 = some ((c.drop 12).take 32) :=
    readBytes_chunk data c pos 12 32 hc hb (by omega)
  have h3 : readBytes data (pos + 44) ((2 * (i32De ((c.drop 8).take 4) - 1)).toNat) =
      some ((c.drop 44).take ((2 * (i32De ((c.drop 8).take 4) - 1)).toNat)) :=
    readBytes_chunk data c pos 44 _ hc hb (by omega)
  have e1 : pos + 8 + 4 = pos + 12 := by omega
  have e2 : pos + 8 + 36 = pos + 44 := by omega
  unfold FileRecord.read
  simp only [e1, e2, h1, h2, h3]
  split
  next h => exact absurd h (by omega)
  next _ =>
    split
    next h => exact absurd h (by push_cast; omega)
    next _ =>
      have hfin : (((pos + 8 : Nat) : Int) + 36 +
          ((2 * (i32De ((c.drop 8).take 4) - 1)).toNat : Int) + 2 +
          ((c.length : Int) - 44 - i32De ((c.drop 8).take 4) * 2)).toNat =
          pos + c.length := by push_cast; omega
      rw [hfin]
      exact ⟨_, rfl, rfl⟩

/-- Decoding a well-formed FREE chunk consumes exactly the chunk. -/
theorem freeRead_chunk (data c : List Nat) (pos : Nat)
    (hc : (data.drop pos).take c.length = c) (hb : pos + c.length ≤ data.length)
    (hsz : 16 ≤ c.length) :
    ∃ r : FreeRecord,
      FreeRecord.read (c.length : Int) (pos : Int) data (pos + 8) =
        .ok (r, pos + c.length) ∧ r.length = (c.length : Int) := by
  have h1 : readBytes data (pos + 8) 8 = some ((c.drop 8).take 8) :=
    readBytes_chunk data c pos 8 8 hc hb (by omega)
  unfold FreeRecord.read
  simp only [h1]
  split
  next h => exact absurd h (by push_cast; omega)
  next _ =>
    have hfin : (((pos + 8 : Nat) : Int) + 8 + ((c.length : Int) - 16)).toNat =
        pos + c.length := by push_cast; omega
    rw [hfin]
    exact ⟨_, rfl, rfl⟩

/-- Decoding a well-formed PDIR chunk consumes exactly the chunk. -/
theorem pdirRead_chunk (data c : List Nat) (pos : Nat)
    (hc : (data.drop pos).take c.length = c) (hb : pos + c.length ≤ data.length)
    (hnl : 1 ≤ i32De ((c.drop 8).take 4))
    (hec : 0 ≤ i32De ((c.drop 12).take 4))
    (hsz : (c.length : Int) =
      48 + 2 * i32De ((c.drop 8).take 4) + 12 * i32De ((c.drop 12).take 4)) :
    ∃ r : DirectoryRecord,
      DirectoryRecord.read (c.length : Int) (pos : Int) data (pos + 8) =
        .ok (r, pos + c.length) ∧ r.length = (c.length : Int) := by
  have h1 : readBytes data (pos + 8) 4 = some ((c.drop 8).take 4) :=
    readBytes_chunk data c pos 8 4 hc hb (by omega)
  have h2 : readBytes data (pos + 12) 4 = some ((c.drop 12).take 4) :=
    readBytes_chunk data c pos 12 4 hc hb (by omega)
  have h3 : readBytes data (pos + 16) 32 = some ((c.drop 16).take 32) :=
    readBytes_chunk data c pos 16 32 hc hb (by omega)
  have h4 : readBytes data (pos + 48) ((2 * (i32De ((c.drop 8).take 4) - 1)).toNat) =
      some ((c.drop 48).take ((2 * (i32De ((c.drop 8).take 4) - 1)).toNat)) :=
    readBytes_chunk data c pos 48 _ hc hb (by omega)
  obtain ⟨es, hes⟩ := readEntries_ok data (i32De ((c.drop 12).take 4)).toNat
    (pos + 8 + 40 + (2 * (i32De ((c.drop 8).take 4) - 1)).toNat + 2) (by omega)
  have e1 : pos + 8 + 4 = pos + 12 := by omega
  have e2 : pos + 8 + 8 = pos + 16 := by omega
  have e3 : pos + 8 + 40 = pos + 48 := by omega
  have hfin : pos + 8 + 40 + (2 * (i32De ((c.drop 8).take 4) - 1)).toNat + 2 +
      12 * (i32De ((c.drop 12).take 4)).toNat = pos + c.length := by omega
  unfold DirectoryRecord.read
  rw [e1, e2]
  simp only [h1, h2, h3]
  split
  next h => exact absurd h (by omega)
  next _ =>
    rw [e3]
    simp only [h4, hes, hfin]
    exact ⟨_, rfl, rfl⟩

/-- Decoding a well-formed GGPK chunk consumes exactly the chunk. -/
theorem ggpkRead_chunk (data c : List Nat) (pos : Nat)
    (hc : (data.drop pos).take c.length = c) (hb : pos + c.length ≤ data.length)
    (hcnt : 0 ≤ i32De ((c.drop 8).take 4))
    (hsz : (c.length : Int) = 12 + 8 * i32De ((c.drop 8).take 4)) :
    ∃ r : GGPKRecord,
      GGPKRecord.read (c.length : Int) (pos : Int) data (pos + 8) =
        .ok (r, pos + c.length) ∧ r.length = (c.length : Int) := by
  have h1 : readBytes data (pos + 8) 4 = some ((c.drop 8).take 4) :=
    readBytes_chunk data c pos 8 4 hc hb (by omega)
  obtain ⟨os, hos⟩ := readOffsets_ok data (i32De ((c.drop 8).take 4)).toNat
    (pos + 8 + 4) (by omega)
  have hfin : pos + 8 + 4 + 8 * (i32De ((c.drop 8).take 4)).toNat =
      pos + c.length := by omega
  unfold GGPKRecord.read
  simp only [h1, hos, hfin]
  exact ⟨_, rfl, rfl⟩

/-- Running `_read_record` on a well-formed chunk decodes one record and leaves the
cursor exactly at the chunk's end; the record's declared `length` is the
chunk's size. -/
theorem readRecord_chunk (data c : List Nat) (pos : Nat)
    (hw : wfChunk c = true)
    (hc : (data.drop pos).take c.length = c)
    (hb : pos + c.length ≤ data.length) :
    ∃ r, readRecord data pos = .ok (r, pos + c.length) ∧
      recordLength r = (c.length : Int) := by
  unfold wfChunk at hw
  simp only [Bool.and_eq_true, decide_eq_true_eq, beq_iff_eq] at hw
  obtain ⟨⟨h8, hlen⟩, hrest⟩ := hw
  have hl : readBytes data pos 4 = some (c.take 4) := by
    have h := readBytes_chunk data c pos 0 4 hc hb (by omega)
    simpa using h
  have ht : readBytes data (pos + 4) 4 = some ((c.drop 4).take 4) :=
    readBytes_chunk data c pos 4 4 hc hb (by omega)
  unfold readRecord
  simp only [hl, ht, hlen]
  by_cases hf : (c.drop 4).take 4 = fileTag
  · rw [if_pos hf] at hrest ⊢
    simp only [Bool.and_eq_true, decide_eq_true_eq] at hrest
    obtain ⟨r, hr, hrl⟩ := fileRead_chunk data c pos hc hb hrest.1 hrest.2
    simp only [hr]
    exact ⟨.file r, rfl, hrl⟩
  · rw [if_neg hf] at hrest ⊢
    by_cases hfr : (c.drop 4).take 4 = freeTag
    · rw [if_pos hfr] at hrest ⊢
      simp only [decide_eq_true_eq] at hrest
      obtain ⟨r, hr, hrl⟩ := freeRead_chunk data c pos hc hb hrest
      simp only [hr]
      exact ⟨.free r, rfl, hrl⟩
    · rw [if_neg hfr] at hrest ⊢
      by_cases hp : (c.drop 4).take 4 = pdirTag
      · rw [if_pos hp] at hrest ⊢
        simp only [Bool.and_eq_true, decide_eq_true_eq, beq_iff_eq] at hrest
        obtain ⟨r, hr, hrl⟩ := pdirRead_chunk data c pos hc hb
          hrest.1.1 hrest.1.2 hrest.2
        simp only [hr]
        exact ⟨.pdir r, rfl, hrl⟩
      · rw [if_neg hp] at hrest ⊢
        by_cases hg : (c.drop 4).take 4 = ggpkTag
        · rw [if_pos hg] at hrest ⊢
          simp only [Bool.and_eq_true, decide_eq_true_eq, beq_iff_eq] at hrest
          obtain ⟨r, hr, hrl⟩ := ggpkRead_chunk data c pos hc hb
            hrest.1 hrest.2
          simp only [hr]
          exact ⟨.ggpk r, rfl, hrl⟩
        · rw [if_neg hg] at hrest
          exact absurd hrest (by simp)

/-- The offsets at which consecutive chunks of the given lengths start,
beginning at `pos`: the prefix sums of the lengths. -/
def offsetsFrom (pos : Nat) : List Nat → List Nat
  | [] => []
  | l :: ls => pos :: offsetsFrom (pos + l) ls

/-- A well-formed chunk has at least its 8-byte header. -/
theorem wfChunk_length (c : List Nat) (hw : wfChunk c = true) : 8 ≤ c.length := by
  unfold wfChunk at hw
  simp only [Bool.and_eq_true, decide_eq_true_eq] at hw
  exact hw.1.1

/-- A list of well-formed chunks has no more chunks than total bytes. -/
theorem chunks_length_le (chunks : List (List Nat))
    (hw : ∀ c ∈ chunks, wfChunk c = true) :
    chunks.length ≤ chunks.flatten.length := by
  induction chunks with
  | nil => simp
  | cons c rest ih =>
    have h8 := wfChunk_length c (hw c (by simp))
    have hr := ih (fun d hd => hw d (by simp [hd]))
    simp only [List.flatten_cons, List.length_append, List.length_cons]
    omega

/-- The scan loop over back-to-back well-formed chunks: every chunk is
decoded at its own start offset and the table's keys are exactly the chunk
start offsets (the prefix sums of the chunk lengths). -/
theorem readLoop_chunks (data : List Nat) :
    ∀ (chunks : List (List Nat)) (pos fuel : Nat),
      (∀ c ∈ chunks, wfChunk c = true) →
      data.drop pos = chunks.flatten →
      chunks.length + 1 ≤ fuel →
      ∃ tbl, readLoop data fuel pos = .ok tbl ∧
        tbl.map Prod.fst =
          (offsetsFrom pos (chunks.map List.length)).map Int.ofNat := by
  intro chunks
  induction chunks with
  | nil =>
    intro pos fuel _ hdrop hfuel
    obtain ⟨f, rfl⟩ : ∃ f, fuel = f + 1 := ⟨fuel - 1, by omega⟩
    refine ⟨[], ?_, by simp [offsetsFrom]⟩
    have hple : data.length ≤ pos := by
      rw [← List.drop_eq_nil_iff]
      simpa using hdrop
    unfold readLoop
    rw [if_neg (by omega)]
  | cons c rest ih =>
    intro pos fuel hw hdrop hfuel
    obtain ⟨f, rfl⟩ : ∃ f, fuel = f + 1 := ⟨fuel - 1, by omega⟩
    have h8 := wfChunk_length c (hw c (by simp))
    have hdl : data.length - pos = c.length + rest.flatten.length := by
      have := congrArg List.length hdrop
      simpa using this
    have hcb : pos + c.length ≤ data.length := by omega
    have hc : (data.drop pos).take c.length = c := by
      rw [hdrop, List.flatten_cons]
      exact List.take_left c rest.flatten
    obtain ⟨r, hr, _⟩ := readRecord_chunk data c pos (hw c (by simp)) hc hcb
    have hdrop' : data.drop (pos + c.length) = rest.flatten := by
      rw [← List.drop_drop, hdrop, List.flatten_cons]
      exact List.drop_left c rest.flatten
    obtain ⟨tbl, htbl, hkeys⟩ := ih (pos + c.length) f
      (fun d hd => hw d (by simp [hd])) hdrop' (by simpa using hfuel)
    refine ⟨((pos : Int), r) :: tbl, ?_, ?_⟩
    · unfold readLoop
      rw [if_pos (by omega)]
      simp only [hr, htbl]
    · simp [offsetsFrom, hkeys]

/-- C3: for every stream of well-formed back-to-back records starting at
offset 0, the scan decodes a record at the current offset, each decode
consumes exactly the record's declared `length` bytes (the cursor ends at
`offset + length` and the decoded record's `length` field is the chunk
size), and the scanned table's keys are the prefix sums of the chunk
lengths. -/
theorem c3_scan_prefix_sums (chunks : List (List Nat))
    (hw : ∀ c ∈ chunks, wfChunk c = true) :
    (∀ (data : List Nat) (pos : Nat) (c : List Nat), c ∈ chunks →
        (data.drop pos).take c.length = c → pos + c.length ≤ data.length →
        ∃ r, readRecord data pos = .ok (r, pos + c.length) ∧
          recordLength r = (c.length : Int)) ∧
    ∃ tbl, GGPKFile.read chunks.flatten = .ok tbl ∧
      tbl.map Prod.fst =
        (offsetsFrom 0 (chunks.map List.length)).map Int.ofNat := by
  constructor
  · intro data pos c hcmem hc hcb
    exact readRecord_chunk data c pos (hw c hcmem) hc hcb
  · exact readLoop_chunks chunks.flatten chunks 0 (chunks.flatten.length + 1) hw
      (by simp) (by have := chunks_length_le chunks hw; omega)

/-- A well-formed FREE record chunk of the given total length (at least 16,
below 128): little-endian length, the `'FREE'` tag, a zero `next_free`
pointer, and zero filler. -/
def freeChunk (len : Nat) : List Nat :=
  [len, 0, 0, 0] ++ freeTag ++ List.replicate 8 0 ++ List.replicate (len - 16) 0

/-- Witness for C3 at the stream of three back-to-back records of lengths
40, 24 and 56: the scanned table's keys are exactly `[0, 40, 64]`. -/
theorem c3_scan_prefix_sums_witness :
    ∃ tbl,
      GGPKFile.read ([freeChunk 40, freeChunk 24, freeChunk 56]).flatten =
        .ok tbl ∧ tbl.map Prod.fst = [0, 40, 64] := by
  obtain ⟨tbl, h1, h2⟩ :=
    (c3_scan_prefix_sums [freeChunk 40, freeChunk 24, freeChunk 56]
      (by decide)).2
  exact ⟨tbl, h1, by rw [h2]; decide⟩

/-- C4: every successfully decoded FileRecord satisfies
`data_length = length - 44 - 2 * name_length`, and `data_start` is the
cursor position immediately after the name's null terminator (start of the
record's payload fields, plus the 4-byte name length, the 32-byte hash, the
`2*(name_length-1)` name bytes and the 2-byte terminator). -/
theorem c4_file_data_length (len off : Int) (data : List Nat) (pos : Nat)
    (r : FileRecord) (fin : Nat)
    (h : FileRecord.read len off data pos = .ok (r, fin)) :
    r.data_length = r.length - 44 - 2 * r.name_length ∧
    r.data_start = (pos : Int) + 4 + 32 + 2 * (r.name_length - 1) + 2 ∧
    r.length = len := by
  simp only [FileRecord.read] at h
  split at h
  · exact absurd h (by simp)
  · split at h
    · exact absurd h (by simp)
    · split at h
      · exact absurd h (by simp)
      · split at h
        · exact absurd h (by simp)
        · split at h
          · exact absurd h (by simp)
          · next hnl _ _ _ =>
            simp only [Except.ok.injEq, Prod.mk.injEq] at h
            obtain ⟨hrec, _⟩ := h
            subst hrec
            refine ⟨by ring, by push_cast; omega, rfl⟩

/-- A concrete well-formed FILE chunk: total length 100, `name_length = 6`
(five UTF-16 characters plus the terminator), zero hash, 44 payload
bytes. -/
def fileDemo : List Nat :=
  [100, 0, 0, 0] ++ fileTag ++ [6, 0, 0, 0] ++ List.replicate 32 0 ++
    [65, 0, 66, 0, 67, 0, 68, 0, 69, 0] ++ [0, 0] ++ List.replicate 44 0

/-- Witness for C4: on `fileDemo` (total length 100, name length 6) the
decoded record has `data_length = 100 - 44 - 12 = 44`. -/
theorem c4_file_data_length_witness :
    ∃ r : FileRecord, FileRecord.read 100 0 fileDemo 8 = .ok (r, 100) ∧
      r.data_length = r.length - 44 - 2 * r.name_length ∧
      r.data_length = 44 := by
  have h : FileRecord.read 100 0 fileDemo 8 =
      .ok (⟨100, 0, 6, 0, [65, 0, 66, 0, 67, 0, 68, 0, 69, 0], 56, 44⟩, 100) := by
    rfl
  exact ⟨_, h, (c4_file_data_length 100 0 fileDemo 8 _ 100 h).1, by rfl⟩

/-- The decoder `FileRecord.read` never fails with the unknown-tag error. -/
theorem fileRead_ne_unknown (len off : Int) (data : List Nat) (pos : Nat) :
    FileRecord.read len off data pos ≠ .error .unknownRecordKind := by
  simp only [FileRecord.read]
  repeat' split
  all_goals simp

/-- The decoder `FreeRecord.read` never fails with the unknown-tag error. -/
theorem freeRead_ne_unknown (len off : Int) (data : List Nat) (pos : Nat) :
    FreeRecord.read len off data pos ≠ .error .unknownRecordKind := by
  simp only [FreeRecord.read]
  repeat' split
  all_goals simp

/-- The directory entry loop only ever fails with a truncation error. -/
theorem readEntries_error_truncated (data : List Nat) :
    ∀ (k pos : Nat) (e : ReadErr), readEntries data pos k = .error e →
      e = .truncatedRecord := by
  intro k
  induction k with
  | zero => intro pos e h; simp [readEntries] at h
  | succ m ih =>
    intro pos e h
    unfold readEntries at h
    split at h
    · simpa using h.symm
    · split at h
      · simpa using h.symm
      · split at h
        next e2 heq =>
          simp only [Except.error.injEq] at h
          subst h
          exact ih (pos + 12) e2 heq
        next => simp at h

/-- The root offset loop only ever fails with a truncation error. -/
theorem readOffsets_error_truncated (data : List Nat) :
    ∀ (k pos : Nat) (e : ReadErr), readOffsets data pos k = .error e →
      e = .truncatedRecord := by
  intro k
  induction k with
  | zero => intro pos e h; simp [readOffsets] at h
  | succ m ih =>
    intro pos e h
    unfold readOffsets at h
    split at h
    · simpa using h.symm
    · split at h
      next e2 heq =>
        simp only [Except.error.injEq] at h
        subst h
        exact ih (pos + 8) e2 heq
      next => simp at h

/-- The decoder `DirectoryRecord.read` never fails with the unknown-tag error. -/
theorem pdirRead_ne_unknown (len off : Int) (data : List Nat) (pos : Nat) :
    DirectoryRecord.read len off data pos ≠ .error .unknownRecordKind := by
  simp only [DirectoryRecord.read]
  repeat' split
  all_goals intro h
  all_goals simp at h
  rename_i e heq
  subst h
  exact absurd (readEntries_error_truncated data _ _ _ heq) (by simp)

/-- The decoder `GGPKRecord.read` never fails with the unknown-tag error. -/
theorem ggpkRead_ne_unknown (len off : Int) (data : List Nat) (pos : Nat) :
    GGPKRecord.read len off data pos ≠ .error .unknownRecordKind := by
  simp only [GGPKRecord.read]
  repeat' split
  all_goals intro h
  all_goals simp at h
  rename_i e heq
  subst h
  exact absurd (readOffsets_error_truncated data _ _ _ heq) (by simp)

/-- C9: once the 4-byte length and 4-byte tag have been read, a tag that is
none of `'FILE'`, `'FREE'`, `'PDIR'`, `'GGPK'` makes `_read_record` fail
with the unknown-record-kind error, and any of those four tags never
produces that error (their per-kind decoders can only fail in other
ways). -/
theorem c9_unknown_tag (data : List Nat) (pos : Nat) (lb tb : List Nat)
    (hl : readBytes data pos 4 = some lb)
    (ht : readBytes data (pos + 4) 4 = some tb) :
    (tb ≠ fileTag → tb ≠ freeTag → tb ≠ pdirTag → tb ≠ ggpkTag →
      readRecord data pos = .error .unknownRecordKind) ∧
    ((tb = fileTag ∨ tb = freeTag ∨ tb = pdirTag ∨ tb = ggpkTag) →
      readRecord data pos ≠ .error .unknownRecordKind) := by
  constructor
  · intro h1 h2 h3 h4
    unfold readRecord
    simp only [hl, ht]
    rw [if_neg h1, if_neg h2, if_neg h3, if_neg h4]
  · intro hor
    unfold readRecord
    simp only [hl, ht]
    rcases hor with h | h | h | h
    · rw [if_pos h]
      split
      next e heq =>
        have := fileRead_ne_unknown (i32De lb) (pos : Int) data (pos + 8)
        rw [heq] at this
        simpa using this
      next => simp
    · rw [if_neg (by rw [h]; decide), if_pos h]
      split
      next e heq =>
        have := freeRead_ne_unknown (i32De lb) (pos : Int) data (pos + 8)
        rw [heq] at this
        simpa using this
      next => simp
    · rw [if_neg (by rw [h]; decide), if_neg (by rw [h]; decide), if_pos h]
      split
      next e heq =>
        have := pdirRead_ne_unknown (i32De lb) (pos : Int) data (pos + 8)
        rw [heq] at this
        simpa using this
      next => simp
    · rw [if_neg (by rw [h]; decide), if_neg (by rw [h]; decide),
        if_neg (by rw [h]; decide), if_pos h]
      split
      next e heq =>
        have := ggpkRead_ne_unknown (i32De lb) (pos : Int) data (pos + 8)
        rw [heq] at this
        simpa using this
      next => simp

/-- A 16-byte stream whose record tag is the unrecognized `'XXXX'`. -/
def badTagDemo : List Nat :=
  [16, 0, 0, 0] ++ [88, 88, 88, 88] ++ List.replicate 8 0

/-- Witness for C9: decoding `badTagDemo` (tag `'XXXX'`) fails with the
unknown-record-kind error, while the same bytes with a `'FREE'` tag do
not. -/
theorem c9_unknown_tag_witness :
    readRecord badTagDemo 0 = .error .unknownRecordKind ∧
    readRecord (freeChunk 16) 0 ≠ .error .unknownRecordKind := by
  constructor
  · exact (c9_unknown_tag badTagDemo 0 [16, 0, 0, 0] [88, 88, 88, 88]
      (by rfl) (by rfl)).1 (by decide) (by decide) (by decide) (by decide)
  · exact (c9_unknown_tag (freeChunk 16) 0 [16, 0, 0, 0] freeTag
      (by rfl) (by rfl)).2 (Or.inr (Or.inl rfl))

/-!
The tree builder, `GGPKFile.directory_build`.  The parent/child node graph
is modelled as an arena: node identifiers are indices into a list of
`BNode`s in creation order; each node stores its record, its entry hash
(absent for the root) and its parent's index (absent for the root).  The
Python worklist `l` (append to the end, pop from the end) is modelled with
its top element first, so `l.append` of a record's entries becomes
prepending the reversed entry list.
-/

/-- Failures of `directory_build`.  `noRecords` is the
`ParserError('No records - perform .read() first')`; `keyError` is the
`KeyError` of `self.records[offset]` on a dangling offset; `unboundLocal`
is the `UnboundLocalError` raised when `ggpkrecord.offsets` is empty and
the loop variable `record` is read without ever being assigned;
`attributeError` is the `AttributeError` of `.offsets` when the record at
offset 0 is not a GGPKRecord; `missingRootDirectory` is the
`ParserError('GGPKRecord does not contain a DirectoryRecord, got ...')`
(the spec's `MissingRootDirectory`). -/
inductive BuildError where
  | noRecords
  | keyError
  | unboundLocal
  | attributeError
  | missingRootDirectory
  deriving DecidableEq, Repr

/-- The loop `for offset in ggpkrecord.offsets: record = self.records[offset];
if isinstance(record, DirectoryRecord): break` -- returns the value of the
loop variable `record` when the loop stops: the first DirectoryRecord, or
the last offset's record when none is a directory.  An empty offset list
leaves `record` unbound. -/
def rootScanLoop (records : Table) : List Int → Except BuildError Record
  | [] => .error .unboundLocal
  | [o] =>
    match records.lookup o with
    | none => .error .keyError
    | some r => .ok r
  | o :: rest =>
    match records.lookup o with
    | none => .error .keyError
    | some r =>
      match r with
      | .pdir _ => .ok r
      | _ => rootScanLoop records rest

/-- The root-selection phase of `directory_build` (`parent is None`):
`records[0]` must be the GGPKRecord, the offset loop picks the root
DirectoryRecord, and a non-directory result raises the
missing-root-directory `ParserError`. -/
def buildRootRecord (records : Table) : Except BuildError DirectoryRecord :=
  match records.lookup 0 with
  | none => .error .keyError
  | some (.ggpk g) =>
    match rootScanLoop records g.offsets with
    | .error e => .error e
    | .ok (.pdir d) => .ok d
    | .ok _ => .error .missingRootDirectory
  | some _ => .error .attributeError

/-- One tree node of the builder's arena: the wrapped record, the entry
hash (`None` for the root) and the parent index (`None` for the root). -/
structure BNode where
  record : Record
  hash : Option Nat
  parent : Option Nat
  deriving DecidableEq, Repr

/-- Builder state: nodes in creation order plus the pending worklist of
`(offset, entry_hash, parent index)` triples, top of stack first. -/
structure BuildState where
  nodes : List BNode
  worklist : List (Int × Nat × Nat)
  deriving DecidableEq, Repr

/-- Result of running the builder loop on a given amount of fuel:
`finished` (the pop raised `IndexError`, ending the loop), `outOfFuel`
(the source would still be looping after that many iterations), or
`failed`. -/
inductive RunRes where
  | finished (st : BuildState)
  | outOfFuel (st : BuildState)
  | failed (e : BuildError)
  deriving DecidableEq, Repr

/-- The worklist loop of `directory_build`: pop a triple, look the offset
up in the table, create a node owned by the popped parent, and -- when the
new node wraps a DirectoryRecord -- push its entries with the new node as
parent.  There is no visited set: nothing stops an offset from being
processed again. -/
def buildRun (records : Table) : Nat → BuildState → RunRes
  | 0, st => .outOfFuel st
  | fuel + 1, st =>
    match st.worklist with
    | [] => .finished st
    | (off, h, par) :: rest =>
      match records.lookup off with
      | none => .failed .keyError
      | some record =>
        let nodeId := st.nodes.length
        let node : BNode := ⟨record, some h, some par⟩
        let wl :=
          match record with
          | .pdir d =>
            (d.entries.map (fun e => (e.offset, e.hash, nodeId))).reverse ++ rest
          | _ => rest
        buildRun records fuel ⟨st.nodes ++ [node], wl⟩

/-- Models `GGPKFile.directory_build()` with no parent: reject an empty table,
select the root DirectoryRecord, seed the worklist with the root's entries
(parented to node 0) and run the worklist loop.  (The `parent is not None`
re-entry variant is outside the claims' scope.) -/
def directory_build (records : Table) (fuel : Nat) : RunRes :=
  if records = [] then .failed .noRecords
  else
    match buildRootRecord records with
    | .error e => .failed e
    | .ok d =>
      let root : BNode := ⟨.pdir d, none, none⟩
      let wl := (d.entries.map (fun e => (e.offset, e.hash, 0))).reverse
      buildRun records fuel ⟨[root], wl⟩

/-- A directory record at offset 12 whose single entry points back at
offset 12 itself: the smallest reference cycle. -/
def cyclicDir : DirectoryRecord :=
  ⟨66, 12, 4, 1, 0, [97, 0, 98, 0, 99, 0], [⟨5, 12⟩]⟩

/-- A record table whose GGPK root points at the cyclic directory. -/
def cyclicTable : Table :=
  [(0, .ggpk ⟨20, 0, [12]⟩), (12, .pdir cyclicDir)]

/-- On the cyclic table the worklist always holds exactly the self-entry,
so the loop re-creates a node for offset 12 on every iteration and never
stops. -/
theorem cyclic_run (fuel : Nat) :
    ∀ (nodes : List BNode) (m : Nat),
      (∀ b ∈ nodes, b.record = .pdir cyclicDir) →
      ∃ st, buildRun cyclicTable fuel ⟨nodes, [(12, 5, m)]⟩ = .outOfFuel st ∧
        st.nodes.length = fuel + nodes.length ∧
        ∀ b ∈ st.nodes, b.record = .pdir cyclicDir := by
  induction fuel with
  | zero =>
    intro nodes m hall
    exact ⟨⟨nodes, [(12, 5, m)]⟩, rfl, by simp, hall⟩
  | succ f ih =>
    intro nodes m hall
    have hstep : buildRun cyclicTable (f + 1) ⟨nodes, [(12, 5, m)]⟩ =
        buildRun cyclicTable f
          ⟨nodes ++ [⟨.pdir cyclicDir, some 5, some m⟩], [(12, 5, nodes.length)]⟩ := rfl
    rw [hstep]
    obtain ⟨st, hrun, hlen, hprop⟩ :=
      ih (nodes ++ [⟨.pdir cyclicDir, some 5, some m⟩]) nodes.length
        (by
          intro b hb
          rcases List.mem_append.mp hb with hb | hb
          · exact hall b hb
          · simp at hb; simp [hb])
    refine ⟨st, hrun, by simp at hlen; omega, hprop⟩

/-- C1 (failing behaviour): on the cyclic table `directory_build` never
terminates -- for every amount of fuel it is still running -- and it has
created `fuel + 1` nodes, every one of them wrapping the directory record
at offset 12 (so the same offset is realised as a node over and over).  No
`CyclicReference` failure exists anywhere in the builder: the run never
returns `failed`. -/
theorem c1_cycle_diverges (fuel : Nat) :
    ∃ st, directory_build cyclicTable fuel = .outOfFuel st ∧
      st.nodes.length = fuel + 1 ∧
      ∀ b ∈ st.nodes, b.record = .pdir cyclicDir := by
  have hroot : directory_build cyclicTable fuel =
      buildRun cyclicTable fuel ⟨[⟨.pdir cyclicDir, none, none⟩], [(12, 5, 0)]⟩ := rfl
  rw [hroot]
  obtain ⟨st, hrun, hlen, hprop⟩ :=
    cyclic_run fuel [⟨.pdir cyclicDir, none, none⟩] 0 (by simp)
  exact ⟨st, hrun, by simpa using hlen, hprop⟩

/-- The spec's selection rule, stated independently of the loop: the first
offset in the list whose table entry is a DirectoryRecord (offsets are
assumed resolvable; resolvability is a hypothesis of the theorems using
this). -/
def firstDirectoryRecord (records : Table) : List Int → Option DirectoryRecord
  | [] => none
  | o :: rest =>
    match records.lookup o with
    | some (.pdir d) => some d
    | _ => firstDirectoryRecord records rest

/-- The root-offset loop agrees with the spec's selection rule on nonempty
resolvable offset lists: it stops at the first DirectoryRecord, and, when
none is a directory, ends with the last offset's (non-directory) record in
the loop variable. -/
theorem rootScanLoop_spec (records : Table) :
    ∀ offs : List Int, offs ≠ [] →
      (∀ o ∈ offs, ∃ r, records.lookup o = some r) →
      (∀ d : DirectoryRecord, firstDirectoryRecord records offs = some d →
        rootScanLoop records offs = .ok (.pdir d)) ∧
      (firstDirectoryRecord records offs = none →
        ∃ r, rootScanLoop records offs = .ok r ∧
          ∀ d : DirectoryRecord, r ≠ .pdir d) := by
  intro offs
  induction offs with
  | nil => intro h; exact absurd rfl h
  | cons o rest ih =>
    intro _ hres
    obtain ⟨r, hr⟩ := hres o (by simp)
    cases rest with
    | nil =>
      constructor
      · intro d hd
        unfold firstDirectoryRecord at hd
        rw [hr] at hd
        cases r with
        | pdir d' =>
          simp only [Option.some.injEq] at hd
          subst hd
          simp [rootScanLoop, hr]
        | file _ => simp [firstDirectoryRecord] at hd
        | free _ => simp [firstDirectoryRecord] at hd
        | ggpk _ => simp [firstDirectoryRecord] at hd
      · intro hd
        unfold firstDirectoryRecord at hd
        rw [hr] at hd
        refine ⟨r, by simp [rootScanLoop, hr], ?_⟩
        intro d hcontra
        subst hcontra
        simp at hd
    | cons o2 rest2 =>
      have hres2 : ∀ x ∈ o2 :: rest2, ∃ r, records.lookup x = some r :=
        fun x hx => hres x (by simp [hx])
      constructor
      · intro d hd
        unfold firstDirectoryRecord at hd
        rw [hr] at hd
        cases r with
        | pdir d' =>
          simp only [Option.some.injEq] at hd
          subst hd
          simp [rootScanLoop, hr]
        | file fr =>
          have := ((ih (by simp) hres2).1) d hd
          simpa [rootScanLoop, hr] using this
        | free fr =>
          have := ((ih (by simp) hres2).1) d hd
          simpa [rootScanLoop, hr] using this
        | ggpk gr =>
          have := ((ih (by simp) hres2).1) d hd
          simpa [rootScanLoop, hr] using this
      · intro hd
        unfold firstDirectoryRecord at hd
        rw [hr] at hd
        cases r with
        | pdir d' => simp at hd
        | file fr =>
          obtain ⟨r2, hr2, hnd⟩ := ((ih (by simp) hres2).2) hd
          exact ⟨r2, by simpa [rootScanLoop, hr] using hr2, hnd⟩
        | free fr =>
          obtain ⟨r2, hr2, hnd⟩ := ((ih (by simp) hres2).2) hd
          exact ⟨r2, by simpa [rootScanLoop, hr] using hr2, hnd⟩
        | ggpk gr =>
          obtain ⟨r2, hr2, hnd⟩ := ((ih (by simp) hres2).2) hd
          exact ⟨r2, by simpa [rootScanLoop, hr] using hr2, hnd⟩

/-- The worklist loop only appends nodes, so the first node (the chosen
root) survives any run that does not fail. -/
theorem buildRun_head (records : Table) :
    ∀ (fuel : Nat) (st : BuildState), st.nodes ≠ [] →
      ∀ st', (buildRun records fuel st = .finished st' ∨
              buildRun records fuel st = .outOfFuel st') →
        st'.nodes.head? = st.nodes.head? := by
  intro fuel
  induction fuel with
  | zero =>
    intro st _ st' h
    rcases h with h | h
    · simp [buildRun] at h
    · simp only [buildRun, RunRes.outOfFuel.injEq] at h
      rw [← h]
  | succ f ih =>
    intro st hne st' h
    obtain ⟨nodes, wl⟩ := st
    obtain ⟨a, tl, rfl⟩ : ∃ a tl, nodes = a :: tl := by
      cases hn : nodes with
      | nil => rw [hn] at hne; exact absurd rfl hne
      | cons a tl => exact ⟨a, tl, rfl⟩
    cases wl with
    | nil =>
      rcases h with h | h
      · simp only [buildRun, RunRes.finished.injEq] at h
        rw [← h]
      · simp [buildRun] at h
    | cons top rest =>
      obtain ⟨off, eh, par⟩ := top
      cases hlk : records.lookup off with
      | none =>
        simp only [buildRun, hlk] at h
        rcases h with h | h <;> exact absurd h (by simp)
      | some record =>
        simp only [buildRun, hlk] at h
        have h2 := ih _ (by simp) st' h
        simpa using h2

/-- An offsets-empty GGPK root record table: offset 0 holds a GGPKRecord
with no child offsets at all. -/
def emptyRootTable : Table := [(0, .ggpk ⟨12, 0, []⟩)]

/-- C5 counterexample: on a table whose offset-0 RootRecord has an empty
`child_offsets` list -- so that, vacuously, no child offset refers to a
DirectoryRecord -- `directory_build` fails with the unbound-local error of
the never-assigned loop variable `record`, not with
`MissingRootDirectory`. -/
theorem c5_empty_offsets_counterexample :
    directory_build emptyRootTable 5 = .failed .unboundLocal ∧
    RunRes.failed .unboundLocal ≠ RunRes.failed .missingRootDirectory :=
  ⟨rfl, by decide⟩

/-- C5 (amended): with a GGPKRecord at offset 0 whose `child_offsets` list
is nonempty and resolvable, the filesystem root node wraps the record at
the first offset whose table entry is a DirectoryRecord, and the build
fails with the missing-root-directory error when none of them is a
directory.  (With an empty `child_offsets` list the code instead crashes
with an unbound-local error, see the counterexample.) -/
theorem c5_root_selection (records : Table) (g : GGPKRecord) (fuel : Nat)
    (h0 : records.lookup 0 = some (.ggpk g))
    (hne : g.offsets ≠ [])
    (hres : ∀ o ∈ g.offsets, ∃ r, records.lookup o = some r) :
    (∀ d, firstDirectoryRecord records g.offsets = some d →
      buildRootRecord records = .ok d ∧
        ∀ st, (directory_build records fuel = .finished st ∨
               directory_build records fuel = .outOfFuel st) →
          st.nodes.head? = some ⟨.pdir d, none, none⟩) ∧
    (firstDirectoryRecord records g.offsets = none →
      directory_build records fuel = .failed .missingRootDirectory) := by
  have hrecne : records ≠ [] := by
    intro hcontra
    rw [hcontra] at h0
    simp [List.lookup] at h0
  constructor
  · intro d hd
    have hloop := (rootScanLoop_spec records g.offsets hne hres).1 d hd
    have hroot : buildRootRecord records = .ok d := by
      unfold buildRootRecord
      simp only [h0, hloop]
    refine ⟨hroot, ?_⟩
    intro st hst
    have hdb : directory_build records fuel =
        buildRun records fuel
          ⟨[⟨.pdir d, none, none⟩],
           (d.entries.map (fun e => (e.offset, e.hash, 0))).reverse⟩ := by
      unfold directory_build
      rw [if_neg hrecne]
      simp only [hroot]
    rw [hdb] at hst
    have := buildRun_head records fuel
      ⟨[⟨.pdir d, none, none⟩],
       (d.entries.map (fun e => (e.offset, e.hash, 0))).reverse⟩
      (by simp) st hst
    simpa using this
  · intro hd
    obtain ⟨r, hloop, hnd⟩ := (rootScanLoop_spec records g.offsets hne hres).2 hd
    have hroot : buildRootRecord records = .error .missingRootDirectory := by
      unfold buildRootRecord
      cases r with
      | pdir d' => exact absurd rfl (hnd d')
      | file fr => simp only [h0, hloop]
      | free fr => simp only [h0, hloop]
      | ggpk gr => simp only [h0, hloop]
    unfold directory_build
    rw [if_neg hrecne]
    simp only [hroot]

/-- A small sound table: a GGPK root listing a FreeRecord at offset 7 and a
childless DirectoryRecord at offset 12. -/
def demoDir5 : DirectoryRecord := ⟨54, 12, 2, 0, 0, [100, 0], []⟩

/-- The table for the C5 witness. -/
def demoTable5 : Table :=
  [(0, .ggpk ⟨28, 0, [7, 12]⟩), (7, .free ⟨16, 7, 0⟩), (12, .pdir demoDir5)]

/-- Witness for C5 (amended): on `demoTable5` the first directory offset is
12, and the build selects `demoDir5` as the root record. -/
theorem c5_root_selection_witness :
    buildRootRecord demoTable5 = .ok demoDir5 := by
  refine (((c5_root_selection demoTable5 ⟨28, 0, [7, 12]⟩ 1 (by rfl) (by decide)
    ?_).1 demoDir5 (by rfl)).1)
  intro o ho
  simp only [List.mem_cons, List.not_mem_nil, or_false] at ho
  rcases ho with h | h
  · subst h; exact ⟨_, rfl⟩
  · subst h; exact ⟨_, rfl⟩

/-!
The navigation layer (`DirectoryNode`).  Navigation only ever touches
decoded names, so nodes here carry their UTF-16-decoded name as a
`List Char` and the record variant that `isinstance` dispatches on.  The
parent back-reference of the source is represented structurally: a node's
children are owned subtrees, and `get_parent` (which only walks `.parent`
links and compares node identity) is modelled over the node's ancestor
chain, see `getParentPair`.
-/

/-- The record variant a navigation node wraps (`isinstance(...,
FileRecord)` / `isinstance(..., DirectoryRecord)`). -/
inductive NavKind where
  | file
  | directory
  deriving DecidableEq, Repr

/-- The decoded view of a wrapped record that navigation uses: its variant
and its decoded name. -/
structure NavRecord where
  kind : NavKind
  name : List Char
  deriving DecidableEq, Repr

/-- A `DirectoryNode`: wrapped record, entry hash (absent for the root)
and owned children in insertion order. -/
inductive DirectoryNode where
  | mk (record : NavRecord) (hash : Option Nat) (children : List DirectoryNode)

mutual

/-- Decidable equality of nodes (the nested inductive cannot derive it). -/
def decEqDN : (a b : DirectoryNode) → Decidable (a = b)
  | .mk r1 h1 cs1, .mk r2 h2 cs2 =>
    if hr : r1 = r2 then
      if hh : h1 = h2 then
        match decEqDNList cs1 cs2 with
        | .isTrue hc => .isTrue (by rw [hr, hh, hc])
        | .isFalse hc => .isFalse (by intro h; injection h; exact hc (by assumption))
      else .isFalse (by intro h; injection h; exact hh (by assumption))
    else .isFalse (by intro h; injection h; exact hr (by assumption))

/-- Decidable equality of node lists. -/
def decEqDNList : (a b : List DirectoryNode) → Decidable (a = b)
  | [], [] => .isTrue rfl
  | [], _ :: _ => .isFalse (by simp)
  | _ :: _, [] => .isFalse (by simp)
  | a :: as, b :: bs =>
    match decEqDN a b, decEqDNList as bs with
    | .isTrue h1, .isTrue h2 => .isTrue (by rw [h1, h2])
    | .isFalse h1, _ => .isFalse (by intro h; injection h; exact h1 (by assumption))
    | _, .isFalse h2 => .isFalse (by intro h; injection h; exact h2 (by assumption))

end

instance : DecidableEq DirectoryNode := decEqDN

/-- The wrapped record. -/
def DirectoryNode.record : DirectoryNode → NavRecord
  | .mk r _ _ => r

/-- The children list. -/
def DirectoryNode.children : DirectoryNode → List DirectoryNode
  | .mk _ _ cs => cs

/-- The literal `'ROOT'`. -/
def rootName : List Char := ['R', 'O', 'O', 'T']

/-- The `name` property of `DirectoryNode`:
`self.record.name if self.record.name else 'ROOT'` (an empty name string is
falsy in Python). -/
def DirectoryNode.name (n : DirectoryNode) : List Char :=
  if n.record.name = [] then rootName else n.record.name

/-- Whether the node's record is a FileRecord. -/
def DirectoryNode.isFileRec (n : DirectoryNode) : Bool :=
  n.record.kind == .file

/-- Whether the node's record is a DirectoryRecord. -/
def DirectoryNode.isDirRec (n : DirectoryNode) : Bool :=
  n.record.kind == .directory

/-- Not the POSIX path separator. -/
def notSlash (c : Char) : Bool := c ≠ '/'

/-- The POSIX path separator. -/
def isSlash (c : Char) : Bool := c = '/'

/-- Models `os.path.split` (POSIX separator `'/'`, the separator the source's
docstring recommends): split at the last separator; the head keeps no
trailing separators unless it consists solely of separators. -/
def osPathSplit (p : List Char) : List Char × List Char :=
  let tail := (p.reverse.takeWhile notSlash).reverse
  let headRaw := (p.reverse.dropWhile notSlash).reverse
  let head :=
    if headRaw.all isSlash then headRaw
    else (headRaw.reverse.dropWhile isSlash).reverse
  (head, tail)

/-- The path-splitting loop at the top of `DirectoryNode.__getitem__`:
`while item: item, result = os.path.split(item); path.insert(0, result)`.
When a step makes no progress (an all-separator path) the Python loop runs
forever; that case is modelled as `none`. -/
def splitLoop (p : List Char) (acc : List (List Char)) :
    Option (List (List Char)) :=
  if hp : p = [] then some acc
  else
    let pr := osPathSplit p
    if h : pr.1.length < p.length then splitLoop pr.1 (pr.2 :: acc)
    else none
termination_by p.length
decreasing_by exact h

/-- The walking loop of `__getitem__`: take the next path segment, move to
the first child whose `name` equals it (`for child in obj.children: if
child.name == item: obj = child; break`), give up with `None` when there is
no such child, and return the current node when the segments run out. -/
def lookupSegs : DirectoryNode → List (List Char) → Option DirectoryNode
  | n, [] => some n
  | n, s :: rest =>
    match n.children.find? (fun c => c.name == s) with
    | some c => lookupSegs c rest
    | none => none

/-- Models `DirectoryNode.__getitem__`: split the path, then walk the children by
exact name match. -/
def DirectoryNode.getitem (n : DirectoryNode) (item : List Char) :
    Option DirectoryNode :=
  match splitLoop item [] with
  | none => none
  | some segs => lookupSegs n segs

mutual

/-- Node size, for termination of the search loop. -/
def dnSize : DirectoryNode → Nat
  | .mk _ _ cs => 1 + dnSizeList cs

/-- Total size of a list of nodes. -/
def dnSizeList : List DirectoryNode → Nat
  | [] => 0
  | c :: cs => dnSize c + dnSizeList cs

end

theorem dnSizeList_append (l r : List DirectoryNode) :
    dnSizeList (l ++ r) = dnSizeList l + dnSizeList r := by
  induction l with
  | nil => simp [dnSizeList]
  | cons c cs ih => simp [dnSizeList, ih]; omega

theorem dnSizeList_reverse (l : List DirectoryNode) :
    dnSizeList l.reverse = dnSizeList l := by
  induction l with
  | nil => rfl
  | cons c cs ih =>
    simp [dnSizeList, List.reverse_cons, dnSizeList_append, ih]
    omega

theorem dnSize_eq (n : DirectoryNode) :
    dnSize n = 1 + dnSizeList n.children := by
  cases n
  simp [dnSize, DirectoryNode.children]

/-- The per-node filter of `DirectoryNode.search`:
`(search_files and isinstance(node.record, FileRecord) or
search_directories and isinstance(node.record, DirectoryRecord)) and
re.search(regex, node.name)`, with the compiled regular expression
abstracted as a `Bool`-valued matcher on the display name. -/
def searchPred (m : List Char → Bool) (sf sd : Bool) (n : DirectoryNode) : Bool :=
  (sf && n.isFileRec || sd && n.isDirRec) && m n.name

/-- The stack loop of `DirectoryNode.search`: pop a node (the stack's top
is first here; Python pops from the end), append it to the result when the
filter accepts it, then push its children (popped again in reverse
order). -/
def searchLoop (m : List Char → Bool) (sf sd : Bool) :
    List DirectoryNode → List DirectoryNode → List DirectoryNode
  | [], acc => acc
  | n :: rest, acc =>
    searchLoop m sf sd (n.children.reverse ++ rest)
      (if searchPred m sf sd n then acc ++ [n] else acc)
termination_by stack _ => dnSizeList stack
decreasing_by
  simp only [dnSizeList, dnSizeList_append, dnSizeList_reverse]
  have := dnSize_eq n
  omega

/-- Models `DirectoryNode.search`. -/
def DirectoryNode.search (n : DirectoryNode) (m : List Char → Bool)
    (sf sd : Bool) : List DirectoryNode :=
  searchLoop m sf sd [n] []

mutual

/-- All nodes of a subtree, root first. -/
def subtreeNodes : DirectoryNode → List DirectoryNode
  | .mk r h cs => .mk r h cs :: subtreeForest cs

/-- All nodes of a forest. -/
def subtreeForest : List DirectoryNode → List DirectoryNode
  | [] => []
  | c :: cs => subtreeNodes c ++ subtreeForest cs

end

/-- The loop of `DirectoryNode.get_parent`, over the node's ancestor chain
(nearest parent first; node identity is the arena index).  Returns the pair
of the collected list (`nodes`) and the final node: `while n != 0`, stop at
a missing parent or at `stop_at`, else record the current node in front of
the collected list and climb. -/
def getParentPair (self : Nat) (chain : List Nat) (n : Int)
    (stopAt : Option Nat) : List Nat × Nat :=
  if n = 0 then ([], self)
  else
    match chain with
    | [] => ([], self)
    | p :: rest =>
      if stopAt = some self then ([], self)
      else
        let pr := getParentPair p rest (n - 1) stopAt
        (pr.1 ++ [self], pr.2)

/-- Models `DirectoryNode.get_parent`: `return nodes if make_list else node`. -/
def get_parent (self : Nat) (chain : List Nat) (n : Int)
    (stopAt : Option Nat) (makeList : Bool) : List Nat ⊕ Nat :=
  if makeList then .inl (getParentPair self chain n stopAt).1
  else .inr (getParentPair self chain n stopAt).2

/-- C10: indexing any node with the empty-string path returns the node
itself (the split loop never runs, so the walk starts and ends at
`self`). -/
theorem c10_empty_path (n : DirectoryNode) : n.getitem [] = some n := by
  simp [DirectoryNode.getitem, splitLoop, lookupSegs]

/-- C7 (failing behaviour): on the ancestor chain `2 → 1 → 0` (root `0`),
an unbounded climb (`n = -1`) with `make_list` returns `[1, 2]` -- the
stopping ancestor `0` is never inserted, because the loop records the
current node before climbing -- whereas the claim (and the method's own
docstring `[n-th parent, ..., self]`) requires `[0, 1, 2]`.  Without
`make_list` the same call correctly returns the stopping ancestor `0`. -/
theorem c7_get_parent_omits_stop :
    get_parent 2 [1, 0] (-1) none true = .inl [1, 2] ∧
    get_parent 2 [1, 0] (-1) none false = .inr 0 ∧
    ([1, 2] : List Nat) ≠ [0, 1, 2] :=
  ⟨rfl, rfl, by decide⟩

/-- A non-root node whose record name is empty (as `name_length = 1`
decodes to): its display name is the literal `'ROOT'`. -/
def emptyNameChild : DirectoryNode := .mk ⟨.file, []⟩ (some 7) []

/-- A tree whose root has the empty-named file as its only child. -/
def c6Tree : DirectoryNode := .mk ⟨.directory, []⟩ none [emptyNameChild]

/-- C6 counterexample: `emptyNameChild` is a child (hence not the root) of
`c6Tree`, yet its display name is `'ROOT'` -- the display name does not
characterize the root. -/
theorem c6_root_name_counterexample :
    DirectoryNode.name emptyNameChild = rootName ∧
    emptyNameChild ∈ c6Tree.children ∧
    emptyNameChild ≠ c6Tree := by
  refine ⟨rfl, by simp [c6Tree, DirectoryNode.children], by decide⟩

/-- C6 (amended): a node's display name is its record's decoded name when
that name is nonempty and the literal `'ROOT'` when it is empty; thus the
root (whose name field is empty) displays `'ROOT'`, but `'ROOT'` is
displayed exactly by the nodes whose record name is empty or is itself the
literal `'ROOT'`, whether or not they are the root. -/
theorem c6_display_name (n : DirectoryNode) :
    (n.record.name ≠ [] → n.name = n.record.name) ∧
    (n.record.name = [] → n.name = rootName) ∧
    (n.name = rootName ↔ (n.record.name = [] ∨ n.record.name = rootName)) := by
  unfold DirectoryNode.name
  by_cases h : n.record.name = []
  · rw [if_pos h]
    exact ⟨fun hc => absurd h hc, fun _ => rfl, by simp [h]⟩
  · rw [if_neg h]
    exact ⟨fun _ => rfl, fun hc => absurd hc h, by simp [h]⟩

/-- Witness for C6 (amended) at two concrete nodes: a nonempty-named file
displays its own name, and an empty-named root displays `'ROOT'`. -/
theorem c6_display_name_witness :
    DirectoryNode.name (.mk ⟨.file, ['a']⟩ (some 1) []) = ['a'] ∧
    DirectoryNode.name c6Tree = rootName :=
  ⟨(c6_display_name (.mk ⟨.file, ['a']⟩ (some 1) [])).1 (by decide),
   (c6_display_name c6Tree).2.1 (by decide)⟩

theorem subtreeForest_append (l r : List DirectoryNode) :
    subtreeForest (l ++ r) = subtreeForest l ++ subtreeForest r := by
  induction l with
  | nil => simp [subtreeForest]
  | cons c cs ih => simp [subtreeForest, ih]

theorem subtreeForest_reverse_perm (l : List DirectoryNode) :
    (subtreeForest l.reverse).Perm (subtreeForest l) := by
  induction l with
  | nil => exact List.Perm.refl _
  | cons c cs ih =>
    rw [List.reverse_cons, subtreeForest_append]
    have h1 : subtreeForest [c] = subtreeNodes c := by simp [subtreeForest]
    rw [h1]
    exact (ih.append_right _).trans List.perm_append_comm

/-- The search loop is, up to order, the accumulator followed by the
filtered nodes of the subtrees still on the stack. -/
theorem searchLoop_perm (m : List Char → Bool) (sf sd : Bool) :
    ∀ (k : Nat) (stack acc : List DirectoryNode), dnSizeList stack ≤ k →
      (searchLoop m sf sd stack acc).Perm
        (acc ++ (subtreeForest stack).filter (searchPred m sf sd)) := by
  intro k
  induction k with
  | zero =>
    intro stack acc h
    cases stack with
    | nil => simp [searchLoop, subtreeForest]
    | cons n rest =>
      have := dnSize_eq n
      simp [dnSizeList] at h
      omega
  | succ k ih =>
    intro stack acc h
    cases stack with
    | nil => simp [searchLoop, subtreeForest]
    | cons n rest =>
      rw [searchLoop]
      have hsz : dnSizeList (n.children.reverse ++ rest) ≤ k := by
        have he := dnSize_eq n
        simp only [dnSizeList] at h
        simp only [dnSizeList_append, dnSizeList_reverse]
        omega
      refine (ih _ _ hsz).trans ?_
      have hforest : (subtreeForest (n.children.reverse ++ rest)).Perm
          (subtreeForest n.children ++ subtreeForest rest) := by
        rw [subtreeForest_append]
        exact (subtreeForest_reverse_perm n.children).append_right _
      have hsub : subtreeForest (n :: rest) =
          n :: (subtreeForest n.children ++ subtreeForest rest) := by
        cases n with
        | mk r hs cs =>
          simp [subtreeForest, subtreeNodes, DirectoryNode.children]
      rw [hsub]
      by_cases hp : searchPred m sf sd n = true
      · rw [if_pos hp, List.filter_cons_of_pos hp, List.append_assoc]
        exact List.Perm.append_left acc
          (List.Perm.cons n (hforest.filter (searchPred m sf sd)))
      · rw [if_neg hp, List.filter_cons_of_neg (by simpa using hp)]
        exact List.Perm.append_left acc (hforest.filter (searchPred m sf sd))

/-- The file `AbstractRing.ot`. -/
def ringNode : DirectoryNode := .mk ⟨.file, "AbstractRing.ot".data⟩ (some 1) []

/-- The file `AbstractAmulet.ot`. -/
def amuletNode : DirectoryNode := .mk ⟨.file, "AbstractAmulet.ot".data⟩ (some 2) []

/-- The directory `AbstractStuff`. -/
def stuffNode : DirectoryNode := .mk ⟨.directory, "AbstractStuff".data⟩ (some 3) []

/-- A root directory containing the two files and one directory of the
search example. -/
def abstractTree : DirectoryNode :=
  .mk ⟨.directory, []⟩ none [ringNode, amuletNode, stuffNode]

/-- The matcher of the regular expression `^Abstract` under `re.search`:
the display name starts with `Abstract`. -/
def abstractMatcher (s : List Char) : Bool := "Abstract".data.isPrefixOf s

/-- C8: `search` returns, up to order, exactly the subtree nodes whose
variant is enabled by the `search_files`/`search_directories` flags and
whose display name matches the pattern -- exhaustive and duplicate-free as
a multiset of subtree nodes; and on the concrete tree with files
`AbstractRing.ot`, `AbstractAmulet.ot` and directory `AbstractStuff`,
searching `^Abstract` with files enabled and directories disabled returns
exactly the two files. -/
theorem c8_search (m : List Char → Bool) (sf sd : Bool) (n : DirectoryNode) :
    (n.search m sf sd).Perm
      ((subtreeNodes n).filter (searchPred m sf sd)) ∧
    abstractTree.search abstractMatcher true false = [amuletNode, ringNode] := by
  constructor
  · have h := searchLoop_perm m sf sd (dnSizeList [n]) [n] [] (le_refl _)
    have hforest : subtreeForest [n] = subtreeNodes n := by simp [subtreeForest]
    rw [hforest] at h
    simpa [DirectoryNode.search] using h
  · simp [DirectoryNode.search, searchLoop, abstractTree, ringNode, amuletNode,
      stuffNode, searchPred, abstractMatcher, DirectoryNode.isFileRec,
      DirectoryNode.isDirRec, DirectoryNode.name, DirectoryNode.children,
      DirectoryNode.record, List.isPrefixOf]

theorem takeWhile_all_of (p : Char → Bool) :
    ∀ l : List Char, (∀ a ∈ l, p a = true) → l.takeWhile p = l := by
  intro l
  induction l with
  | nil => intro _; rfl
  | cons a as ih =>
    intro h
    simp only [List.takeWhile_cons, h a (by simp), if_true, List.cons.injEq,
      true_and]
    exact ih (fun x hx => h x (by simp [hx]))

theorem dropWhile_all_of (p : Char → Bool) :
    ∀ l : List Char, (∀ a ∈ l, p a = true) → l.dropWhile p = [] := by
  intro l
  induction l with
  | nil => intro _; rfl
  | cons a as ih =>
    intro h
    simp only [List.dropWhile_cons, h a (by simp), if_true]
    exact ih (fun x hx => h x (by simp [hx]))

theorem takeWhile_append_left (p : Char → Bool) :
    ∀ (l r : List Char) (x : Char), (∀ a ∈ l, p a = true) → p x = false →
      (l ++ x :: r).takeWhile p = l := by
  intro l
  induction l with
  | nil =>
    intro r x _ hx
    simp [List.takeWhile_cons, hx]
  | cons a as ih =>
    intro r x hall hx
    simp only [List.cons_append, List.takeWhile_cons, hall a (by simp),
      if_true, List.cons.injEq, true_and]
    exact ih r x (fun b hb => hall b (by simp [hb])) hx

theorem dropWhile_append_left (p : Char → Bool) :
    ∀ (l r : List Char) (x : Char), (∀ a ∈ l, p a = true) → p x = false →
      (l ++ x :: r).dropWhile p = x :: r := by
  intro l
  induction l with
  | nil =>
    intro r x _ hx
    simp [List.dropWhile_cons, hx]
  | cons a as ih =>
    intro r x hall hx
    simp only [List.cons_append, List.dropWhile_cons, hall a (by simp), if_true]
    exact ih r x (fun b hb => hall b (by simp [hb])) hx

/-- Applying `os.path.split` to a separator-free path: empty head, the path itself
as tail. -/
theorem osPathSplit_no_slash (s : List Char) (hs : ∀ c ∈ s, c ≠ '/') :
    osPathSplit s = ([], s) := by
  have h1 : s.reverse.takeWhile notSlash = s.reverse :=
    takeWhile_all_of _ _ (by
      intro a ha
      simp only [notSlash, decide_eq_true_eq]
      exact hs a (List.mem_reverse.mp ha))
  have h2 : s.reverse.dropWhile notSlash = [] :=
    dropWhile_all_of _ _ (by
      intro a ha
      simp only [notSlash, decide_eq_true_eq]
      exact hs a (List.mem_reverse.mp ha))
  simp [osPathSplit, h1, h2]

/-- Applying `os.path.split` to `A ++ '/' ++ s` with `s` separator-free and `A`
ending in a non-separator character: head `A`, tail `s`. -/
theorem osPathSplit_append (A s : List Char) (hs : ∀ c ∈ s, c ≠ '/')
    (c : Char) (B : List Char) (hA : A.reverse = c :: B) (hc : c ≠ '/') :
    osPathSplit (A ++ '/' :: s) = (A, s) := by
  have hrev : (A ++ '/' :: s).reverse = s.reverse ++ '/' :: A.reverse := by
    simp [List.reverse_append]
  have hall : ∀ a ∈ s.reverse, notSlash a = true := by
    intro a ha
    simp only [notSlash, decide_eq_true_eq]
    exact hs a (List.mem_reverse.mp ha)
  have hslash : notSlash '/' = false := by simp [notSlash]
  have htake : (A ++ '/' :: s).reverse.takeWhile notSlash = s.reverse := by
    rw [hrev]
    exact takeWhile_append_left _ _ _ _ hall hslash
  have hdrop : (A ++ '/' :: s).reverse.dropWhile notSlash = '/' :: A.reverse := by
    rw [hrev]
    exact dropWhile_append_left _ _ _ _ hall hslash
  have hcmem : c ∈ A := by
    rw [← List.mem_reverse, hA]
    simp
  have hnotall : ((A ++ ['/']).all isSlash) = false := by
    rw [List.all_eq_false]
    refine ⟨c, List.mem_append_left _ hcmem, ?_⟩
    simp [isSlash, hc]
  have hstrip : ((A ++ ['/']).reverse.dropWhile isSlash).reverse = A := by
    have h1 : (A ++ ['/']).reverse = '/' :: A.reverse := by simp
    rw [h1, List.dropWhile_cons]
    have h2 : isSlash '/' = true := by simp [isSlash]
    rw [if_pos h2, hA, List.dropWhile_cons]
    have h3 : isSlash c = false := by simp [isSlash, hc]
    rw [h3]
    simp only [Bool.false_eq_true, if_false]
    rw [← hA]
    simp
  unfold osPathSplit
  simp only [htake, hdrop, List.reverse_reverse, List.reverse_cons, hnotall,
    Bool.false_eq_true, if_false]
  rw [hstrip]

/-- Segments joined with the path separator (the claim's "ancestor names
joined by the path separator"). -/
def joinPath : List (List Char) → List Char
  | [] => []
  | [s] => s
  | s :: rest => s ++ '/' :: joinPath rest

theorem joinPath_concat :
    ∀ (init : List (List Char)) (s : List Char), init ≠ [] →
      joinPath (init ++ [s]) = joinPath init ++ '/' :: s := by
  intro init
  induction init with
  | nil => intro s h; exact absurd rfl h
  | cons a rest ih =>
    intro s _
    cases rest with
    | nil => simp [joinPath]
    | cons b bs =>
      calc joinPath ((a :: b :: bs) ++ [s])
          = a ++ '/' :: joinPath ((b :: bs) ++ [s]) := rfl
        _ = a ++ '/' :: (joinPath (b :: bs) ++ '/' :: s) := by
              rw [ih s (by simp)]
        _ = (a ++ '/' :: joinPath (b :: bs)) ++ '/' :: s := by simp
        _ = joinPath (a :: b :: bs) ++ '/' :: s := rfl

/-- The joined path of nonempty separator-free segments ends in a
non-separator character when there is at least one segment. -/
theorem joinPath_last_char :
    ∀ (segs : List (List Char)), segs ≠ [] →
      (∀ s ∈ segs, s ≠ [] ∧ ∀ c ∈ s, c ≠ '/') →
      ∃ c B, (joinPath segs).reverse = c :: B ∧ c ≠ '/' := by
  intro segs
  induction segs with
  | nil => intro h; exact absurd rfl h
  | cons a rest ih =>
    intro _ h
    cases rest with
    | nil =>
      obtain ⟨hne, hsf⟩ := h a (by simp)
      obtain ⟨c, B, hrev⟩ : ∃ c B, a.reverse = c :: B := by
        cases hr : a.reverse with
        | nil => exact absurd (by simpa using hr) hne
        | cons c B => exact ⟨c, B, rfl⟩
      refine ⟨c, B, by simpa [joinPath] using hrev, ?_⟩
      exact hsf c (by rw [← List.mem_reverse, hrev]; simp)
    | cons b bs =>
      obtain ⟨c, B, hrev, hc⟩ := ih (by simp)
        (fun s hs => h s (by simp [hs]))
      refine ⟨c, B ++ '/' :: a.reverse, ?_, hc⟩
      have h1 : joinPath (a :: b :: bs) = a ++ '/' :: joinPath (b :: bs) := rfl
      rw [h1]
      simp [List.reverse_append, hrev]

/-- The split loop recovers the segments of a joined path of nonempty
separator-free segments (prepending them to whatever is already
accumulated). -/
theorem splitLoop_joinPath :
    ∀ (segs : List (List Char)),
      (∀ s ∈ segs, s ≠ [] ∧ ∀ c ∈ s, c ≠ '/') →
      ∀ acc, splitLoop (joinPath segs) acc = some (segs ++ acc) := by
  intro segs
  induction segs using List.reverseRecOn with
  | nil => intro _ acc; simp [joinPath, splitLoop]
  | append_singleton init s ih =>
    intro h acc
    obtain ⟨hsne, hssf⟩ := h s (by simp)
    by_cases hinit : init = []
    · subst hinit
      have hjoin : joinPath ([] ++ [s]) = s := rfl
      rw [hjoin, splitLoop, dif_neg hsne]
      have hsplit : osPathSplit s = ([], s) := osPathSplit_no_slash s hssf
      have hlt : (0 : Nat) < s.length := List.length_pos.mpr hsne
      simp only [hsplit]
      rw [dif_pos (by simpa using hlt)]
      simp [splitLoop]
    · have hjoin := joinPath_concat init s hinit
      rw [hjoin]
      obtain ⟨c, B, hrev, hc⟩ := joinPath_last_char init hinit
        (fun t ht => h t (by simp [ht]))
      have hsplit : osPathSplit (joinPath init ++ '/' :: s) = (joinPath init, s) :=
        osPathSplit_append (joinPath init) s hssf c B hrev hc
      rw [splitLoop]
      have hne : joinPath init ++ '/' :: s ≠ [] := by simp
      rw [dif_neg hne]
      simp only [hsplit]
      have hlt : (joinPath init).length < (joinPath init ++ '/' :: s).length := by
        simp
      rw [dif_pos hlt]
      rw [ih (fun t ht => h t (by simp [ht])) (s :: acc)]
      simp

/-- Pairwise-distinct names (computably, via `contains`). -/
def nodupNames : List (List Char) → Bool
  | [] => true
  | x :: xs => !(xs.contains x) && nodupNames xs

mutual

/-- Well-formedness of a tree for path lookup: at every node the children's
display names are pairwise distinct and contain no path separator.
(Display names are never empty: an empty record name displays as
`'ROOT'`.)  An archive is well formed for the lookup claim exactly when the
tree built from it satisfies this. -/
def wfTree : DirectoryNode → Bool
  | .mk _ _ cs =>
    nodupNames (cs.map DirectoryNode.name) &&
    cs.all (fun c => (DirectoryNode.name c).all notSlash) &&
    wfForest cs

/-- Checks `wfTree` on every tree of a forest. -/
def wfForest : List DirectoryNode → Bool
  | [] => true
  | c :: cs => wfTree c && wfForest cs

end

/-- The names and endpoint collected along a child-index path: the claim's
`pathOf(node)` together with the node it designates. -/
def walkPath : DirectoryNode → List Nat → Option (List (List Char) × DirectoryNode)
  | n, [] => some ([], n)
  | n, i :: rest =>
    match n.children.get? i with
    | none => none
    | some c =>
      match walkPath c rest with
      | none => none
      | some (names, m) => some (c.name :: names, m)

/-- A display name is never the empty string. -/
theorem name_ne_nil (n : DirectoryNode) : n.name ≠ [] := by
  unfold DirectoryNode.name
  by_cases h : n.record.name = []
  · rw [if_pos h]; simp [rootName]
  · rw [if_neg h]; exact h

theorem wfForest_mem :
    ∀ (cs : List DirectoryNode) (c : DirectoryNode), wfForest cs = true →
      c ∈ cs → wfTree c = true := by
  intro cs
  induction cs with
  | nil => intro c _ hc; simp at hc
  | cons a as ih =>
    intro c hwf hc
    rw [wfForest, Bool.and_eq_true] at hwf
    rcases List.mem_cons.mp hc with h | h
    · rw [h]; exact hwf.1
    · exact ih c hwf.2 h

/-- With pairwise-distinct names, the first child whose name matches a
member's name is that member itself. -/
theorem find?_name_of_nodup :
    ∀ (l : List DirectoryNode) (i : Nat) (c : DirectoryNode),
      nodupNames (l.map DirectoryNode.name) = true → l.get? i = some c →
      l.find? (fun x => x.name == c.name) = some c := by
  intro l
  induction l with
  | nil => intro i c _ h; simp at h
  | cons a as ih =>
    intro i c hnd hg
    rw [List.map_cons, nodupNames, Bool.and_eq_true] at hnd
    cases i with
    | zero =>
      simp only [List.get?] at hg
      injection hg with hg
      subst hg
      rw [List.find?_cons_of_pos _ (by simp)]
    | succ j =>
      simp only [List.get?] at hg
      have hcmem : c ∈ as := by
        have := List.get?_eq_some.mp hg
        obtain ⟨hlt, hget⟩ := this
        rw [← hget]
        exact List.get_mem as j hlt
      by_cases hab : a.name == c.name
      · exfalso
        have heq : a.name = c.name := by simpa using hab
        have hmem : a.name ∈ as.map DirectoryNode.name := by
          rw [heq]
          exact List.mem_map_of_mem _ hcmem
        have hcont : (as.map DirectoryNode.name).contains a.name = true := by
          simpa using hmem
        rw [hcont] at hnd
        simpa using hnd.1
      · rw [List.find?_cons_of_neg _ (by simpa using hab)]
        exact ih j c hnd.2 hg

/-- On a well-formed tree, walking the collected names finds exactly the
walked-to node. -/
theorem lookupSegs_walkPath :
    ∀ (idxs : List Nat) (t : DirectoryNode) (names : List (List Char))
      (m : DirectoryNode), wfTree t = true →
      walkPath t idxs = some (names, m) → lookupSegs t names = some m := by
  intro idxs
  induction idxs with
  | nil =>
    intro t names m _ hwalk
    simp only [walkPath, Option.some.injEq, Prod.mk.injEq] at hwalk
    obtain ⟨h1, h2⟩ := hwalk
    rw [← h1, ← h2]
    rfl
  | cons i rest ih =>
    intro t names m hwf hwalk
    cases t with
    | mk r hs cs =>
      simp only [walkPath] at hwalk
      split at hwalk
      · exact absurd hwalk (by simp)
      · rename_i c hget
        split at hwalk
        · exact absurd hwalk (by simp)
        · rename_i ns m2 hrec
          simp only [Option.some.injEq, Prod.mk.injEq] at hwalk
          obtain ⟨h1, h2⟩ := hwalk
          subst h2
          rw [← h1]
          rw [wfTree, Bool.and_eq_true, Bool.and_eq_true] at hwf
          have hget2 : cs.get? i = some c := hget
          have hfind := find?_name_of_nodup cs i c hwf.1.1 hget2
          rw [lookupSegs]
          simp only [DirectoryNode.children, hfind]
          have hcmem : c ∈ cs := List.get?_mem hget2
          exact ih c ns _ (wfForest_mem cs c hwf.2 hcmem) hrec

/-- Along a walk in a well-formed tree every collected name is nonempty
and separator-free. -/
theorem walkPath_names :
    ∀ (idxs : List Nat) (t : DirectoryNode) (names : List (List Char))
      (m : DirectoryNode), wfTree t = true →
      walkPath t idxs = some (names, m) →
      ∀ s ∈ names, s ≠ [] ∧ ∀ ch ∈ s, ch ≠ '/' := by
  intro idxs
  induction idxs with
  | nil =>
    intro t names m _ hwalk
    simp only [walkPath, Option.some.injEq, Prod.mk.injEq] at hwalk
    intro s hs
    rw [← hwalk.1] at hs
    simp at hs
  | cons i rest ih =>
    intro t names m hwf hwalk
    cases t with
    | mk r hsh cs =>
      simp only [walkPath] at hwalk
      split at hwalk
      · exact absurd hwalk (by simp)
      · rename_i c hget
        split at hwalk
        · exact absurd hwalk (by simp)
        · rename_i ns m2 hrec
          simp only [Option.some.injEq, Prod.mk.injEq] at hwalk
          obtain ⟨h1, _⟩ := hwalk
          rw [wfTree, Bool.and_eq_true, Bool.and_eq_true] at hwf
          have hcmem : c ∈ cs := List.get?_mem hget
          intro s hs
          rw [← h1] at hs
          rcases List.mem_cons.mp hs with h | h
          · subst h
            refine ⟨name_ne_nil c, ?_⟩
            intro ch hch
            have hall := hwf.1.2
            rw [List.all_eq_true] at hall
            have hcall := hall c hcmem
            rw [List.all_eq_true] at hcall
            have := hcall ch hch
            simpa [notSlash] using this
          · exact ih c ns m2 (wfForest_mem cs c hwf.2 hcmem) hrec s h

/-- C2: on a well-formed tree (children's display names pairwise distinct
and separator-free at every node), indexing the root with the path of any
node -- the names along the walk to it, joined by the path separator --
returns exactly that node. -/
theorem c2_lookup_roundtrip (t m : DirectoryNode) (idxs : List Nat)
    (names : List (List Char))
    (hwf : wfTree t = true)
    (hwalk : walkPath t idxs = some (names, m)) :
    t.getitem (joinPath names) = some m := by
  have hnames := walkPath_names idxs t names m hwf hwalk
  have hsplit := splitLoop_joinPath names hnames []
  unfold DirectoryNode.getitem
  simp only [hsplit, List.append_nil]
  exact lookupSegs_walkPath idxs t names m hwf hwalk

/-- Witness for C2: in the concrete tree, looking up the path
`AbstractRing.ot` from the root returns the `AbstractRing.ot` node the
walk designates. -/
theorem c2_lookup_roundtrip_witness :
    abstractTree.getitem "AbstractRing.ot".data = some ringNode := by
  have h := c2_lookup_roundtrip abstractTree ringNode [0]
    ["AbstractRing.ot".data] (by decide) (by decide)
  simpa [joinPath] using h

end GGPK
